import Mathlib

/-!
Verification of the audio-looper core (`main.go`).

Shallow embedding of the loop-point detector (`detectLoopSegment`) and the
seamless player (`seamlessLoop` / `playAudioSegment`) from `src/main.go`,
together with proofs of the specification's testable properties.

Modelling choices:
* A PCM sample is a pair of rational amplitudes (left, right).  The Go code
  uses `float64`; every constant the properties mention (`0.001`, `±1.0`,
  `32767`) is exactly representable, and all comparisons involved are exact,
  so `ℚ` is a faithful carrier for these inputs.
* The pull-based `beep` stream is modelled by the list of batches successive
  `Stream` calls return, each tagged with its `ok` flag.  A well-behaved
  finite stream of samples `xs` yields full 1024-sample batches followed by a
  final short batch (`mkChunks`).
* Go `int16` conversion truncates the float toward zero; the two bytes
  written are the little-endian halves of the 16-bit two's-complement
  pattern.
-/

/-- A stereo PCM sample: (left, right) channel amplitudes. -/
abbrev Sample := ℚ × ℚ

/-- Silence threshold from `main.go`: `var threshold float64 = 0.001`. -/
def threshold : ℚ := 1/1000

/-- Silence-run length from `main.go`: `silenceDuration := 44100 / 10`
(a literal constant; the stream's actual sample rate is never consulted). -/
def silenceDuration : ℕ := 44100 / 10

/-- The detector state carried through the scan: the running silence
counter and the current `(start, end)` boundaries. -/
structure DetectState where
  silenceCount : ℕ
  start : ℕ
  «end» : ℕ
deriving DecidableEq

/-- A sample is silent when its signed channel average is below the
threshold — `amp := (buffer[j][0] + buffer[j][1]) / 2; amp < threshold`
in `main.go` (no absolute value is taken). -/
def isSilent (s : Sample) : Prop := (s.1 + s.2) / 2 < threshold

instance (s : Sample) : Decidable (isSilent s) := by
  unfold isSilent; infer_instance

/-- One iteration of the inner sample loop of `detectLoopSegment`
(`main.go` lines 100–112) on the sample at absolute index `idx`. -/
def stepSample (st : DetectState) (idx : ℕ) (s : Sample) : DetectState :=
  if (s.1 + s.2) / 2 < threshold then
    { st with silenceCount := st.silenceCount + 1 }
  else
    let st' := if st.silenceCount > silenceDuration
      then { st with start := st.«end», «end» := idx }
      else st
    { st' with silenceCount := 0 }

/-- The inner `for j` loop: scan the samples of one batch in order,
`idx` being the absolute index `i*1024 + j` of the current sample. -/
def scanSamples : DetectState → ℕ → List Sample → DetectState
  | st, _, [] => st
  | st, idx, s :: rest => scanSamples (stepSample st idx s) (idx + 1) rest

/-- The outer pull loop of `detectLoopSegment`: pull batch `i`; stop when a
pull reports `!ok || n == 0`; otherwise scan it starting at index `i*1024`.
Once the listed pulls are exhausted the stream yields `(0, false)`, ending
the loop. -/
def detectGo : List (List Sample × Bool) → ℕ → DetectState → DetectState
  | [], _, st => st
  | (batch, ok) :: rest, i, st =>
    if ok = false ∨ batch.length = 0 then st
    else detectGo rest (i + 1) (scanSamples st (i * 1024) batch)

/-- `detectLoopSegment` from `main.go`: scan the whole stream (given by its
pull behaviour) and return the final `(start, end)` pair. -/
def detectLoopSegment (pulls : List (List Sample × Bool)) : ℕ × ℕ :=
  let st := detectGo pulls 0 ⟨0, 0, 0⟩
  (st.start, st.«end»)

/-- Fuel-indexed chunking of a flat sample list into successive
1024-sample batches (`(x :: rest).drop 1024 = rest.drop 1023`). -/
def mkChunksFuel : ℕ → List Sample → List (List Sample × Bool)
  | _, [] => []
  | 0, _ :: _ => []
  | fuel + 1, x :: rest =>
      ((x :: rest).take 1024, true) :: mkChunksFuel fuel (rest.drop 1023)

/-- Pull behaviour of a well-behaved finite stream holding the samples
`xs`: full 1024-sample batches, a final short batch, then exhaustion. -/
def mkChunks (xs : List Sample) : List (List Sample × Bool) :=
  mkChunksFuel xs.length xs

/-- `detectLoopSegment` run on the canonical chunking of a flat sample
list. -/
def detectOnStream (xs : List Sample) : ℕ × ℕ :=
  detectLoopSegment (mkChunks xs)

-- ## Basic scan lemmas

theorem scanSamples_append (a b : List Sample) :
    ∀ (st : DetectState) (idx : ℕ),
      scanSamples st idx (a ++ b)
        = scanSamples (scanSamples st idx a) (idx + a.length) b := by
  induction a with
  | nil => intro st idx; simp [scanSamples]
  | cons s rest ih =>
    intro st idx
    show scanSamples (stepSample st idx s) (idx + 1) (rest ++ b) = _
    rw [ih]
    have h1 : idx + 1 + rest.length = idx + (s :: rest).length := by
      simp [List.length_cons]; omega
    rw [h1]
    rfl

/-- Folding the chunked pulls is the same as scanning the flat list:
batch `i` starts at absolute index `i*1024`, and every batch before the
last is exactly 1024 samples long. -/
theorem detectGo_mkChunksFuel (n : ℕ) :
    ∀ xs : List Sample, xs.length ≤ n → ∀ (i : ℕ) (st : DetectState),
      detectGo (mkChunksFuel n xs) i st = scanSamples st (i * 1024) xs := by
  induction n with
  | zero =>
    intro xs hlen i st
    have hxs : xs = [] := List.eq_nil_of_length_eq_zero (Nat.le_zero.mp hlen)
    subst hxs
    simp [mkChunksFuel, detectGo, scanSamples]
  | succ n ih =>
    intro xs hlen i st
    match xs with
    | [] => simp [mkChunksFuel, detectGo, scanSamples]
    | x :: rest =>
      set xs := x :: rest with hxs
      have hpos : 0 < xs.length := by simp [hxs]
      have htake : (xs.take 1024).length ≠ 0 := by
        simp only [List.length_take]
        omega
      have hchunk : mkChunksFuel (n + 1) xs
          = (xs.take 1024, true) :: mkChunksFuel n (xs.drop 1024) := by
        rw [hxs]
        rw [show (x :: rest).drop 1024 = rest.drop 1023 from List.drop_succ_cons]
        rfl
      rw [hchunk]
      simp only [detectGo]
      rw [if_neg (by simp [htake])]
      have hdrop : (xs.drop 1024).length ≤ n := by
        simp only [List.length_drop]
        simp only [hxs, List.length_cons] at hlen ⊢
        omega
      rw [ih (xs.drop 1024) hdrop (i + 1)]
      have hsplit := scanSamples_append (xs.take 1024) (xs.drop 1024) st (i * 1024)
      rw [List.take_append_drop] at hsplit
      rw [hsplit]
      by_cases hbig : 1024 ≤ xs.length
      · have h1024 : (xs.take 1024).length = 1024 := by
          simp only [List.length_take]; omega
        rw [h1024]
        have harith : i * 1024 + 1024 = (i + 1) * 1024 := by ring
        rw [harith]
      · have hd : xs.drop 1024 = [] := by
          apply List.drop_eq_nil_of_le; omega
        have ht : xs.take 1024 = xs := List.take_of_length_le (by omega)
        rw [hd, ht]
        simp [scanSamples]

theorem detectOnStream_eq_scan (xs : List Sample) :
    detectOnStream xs
      = ((scanSamples ⟨0, 0, 0⟩ 0 xs).start, (scanSamples ⟨0, 0, 0⟩ 0 xs).«end») := by
  unfold detectOnStream detectLoopSegment mkChunks
  rw [detectGo_mkChunksFuel xs.length xs le_rfl 0]

-- ## Run-structured streams

/-- A canonical silent sample (digital silence). -/
def silentSample : Sample := (0, 0)

/-- A canonical non-silent sample (full-scale positive). -/
def loudSample : Sample := (1, 1)

theorem isSilent_silentSample : isSilent silentSample := by
  unfold isSilent silentSample threshold
  norm_num

theorem not_isSilent_loudSample : ¬ isSilent loudSample := by
  unfold isSilent loudSample threshold
  norm_num

/-- On a silent sample the detector only bumps the run counter. -/
theorem stepSample_silent (st : DetectState) (idx : ℕ) {s : Sample}
    (hs : isSilent s) :
    stepSample st idx s = ⟨st.silenceCount + 1, st.start, st.«end»⟩ := by
  have hs' : (s.1 + s.2) / 2 < threshold := hs
  unfold stepSample
  rw [if_pos hs']

/-- On a non-silent sample the detector resets the counter, shifting the
boundaries exactly when the preceding silent run exceeded the duration. -/
theorem stepSample_loud (st : DetectState) (idx : ℕ) {s : Sample}
    (hs : ¬ isSilent s) :
    stepSample st idx s
      = if silenceDuration < st.silenceCount
        then ⟨0, st.«end», idx⟩ else ⟨0, st.start, st.«end»⟩ := by
  have hs' : ¬ (s.1 + s.2) / 2 < threshold := hs
  unfold stepSample
  rw [if_neg hs']
  by_cases hc : silenceDuration < st.silenceCount
  · simp [hc]
  · simp [hc]

/-- Scanning a run of `k` silent samples adds `k` to the counter and
touches nothing else. -/
theorem scanSamples_silent_run (k : ℕ) :
    ∀ (st : DetectState) (idx : ℕ),
      scanSamples st idx (List.replicate k silentSample)
        = ⟨st.silenceCount + k, st.start, st.«end»⟩ := by
  induction k with
  | zero => intro st idx; simp [scanSamples]
  | succ k ih =>
    intro st idx
    rw [List.replicate_succ]
    show scanSamples (stepSample st idx silentSample) (idx + 1) _ = _
    rw [stepSample_silent st idx isSilent_silentSample, ih]
    simp only [DetectState.mk.injEq, and_true, true_and]
    omega

/-- Scanning loud samples from a quiet state (counter at most the
duration) leaves the boundaries untouched and the counter at zero (or
unchanged when the run is empty). -/
theorem scanSamples_loud_run_of_zero (m : ℕ) :
    ∀ (s e idx : ℕ),
      scanSamples ⟨0, s, e⟩ idx (List.replicate m loudSample) = ⟨0, s, e⟩ := by
  induction m with
  | zero => intro s e idx; simp [scanSamples]
  | succ m ih =>
    intro s e idx
    rw [List.replicate_succ]
    show scanSamples (stepSample ⟨0, s, e⟩ idx loudSample) (idx + 1) _ = _
    rw [stepSample_loud _ idx not_isSilent_loudSample]
    rw [if_neg (by simp [silenceDuration])]
    exact ih s e (idx + 1)

/-- One qualifying block: a silent run of length `b > silenceDuration`
followed by `c ≥ 1` loud samples, entered at stream position `p` with a
zero counter, shifts `end` into `start` and records `p + b` as the new
`end`. -/
theorem scanSamples_block (b c : ℕ) (hb : silenceDuration < b) (hc : 0 < c)
    (s e p : ℕ) :
    scanSamples ⟨0, s, e⟩ p
        (List.replicate b silentSample ++ List.replicate c loudSample)
      = ⟨0, e, p + b⟩ := by
  rw [scanSamples_append]
  rw [scanSamples_silent_run]
  simp only [List.length_replicate]
  obtain ⟨c', rfl⟩ : ∃ c', c = c' + 1 := ⟨c - 1, by omega⟩
  rw [List.replicate_succ]
  show scanSamples (stepSample ⟨0 + b, s, e⟩ (p + b) loudSample) (p + b + 1) _ = _
  rw [stepSample_loud _ _ not_isSilent_loudSample]
  rw [if_pos (by simpa using hb)]
  exact scanSamples_loud_run_of_zero c' e (p + b) (p + b + 1)

/-- The last two elements of a list of indices, defaulting to `0`:
`lastTwo [a, b] = (a, b)`, and longer lists drop their head. -/
def lastTwo : List ℕ → ℕ × ℕ
  | [x, y] => (x, y)
  | _ :: rest => lastTwo rest
  | [] => (0, 0)

theorem lastTwo_cons_of_two_le (x : ℕ) (l : List ℕ) (hl : 2 ≤ l.length) :
    lastTwo (x :: l) = lastTwo l := by
  match l with
  | [] => simp at hl
  | [y] => simp at hl
  | y :: z :: rest => rfl

/-- A run-length description of a stream: a loud prefix of `a` samples
followed by blocks `(bᵢ, cᵢ)` of `bᵢ` silent then `cᵢ` loud samples. -/
def blocksStream : List (ℕ × ℕ) → List Sample
  | [] => []
  | (b, c) :: rest =>
      (List.replicate b silentSample ++ List.replicate c loudSample)
        ++ blocksStream rest

def runsStream (a : ℕ) (runs : List (ℕ × ℕ)) : List Sample :=
  List.replicate a loudSample ++ blocksStream runs

/-- The absolute sample index at which each silent run ends (= the index
of the first loud sample after it), for blocks starting at position `p`. -/
def runEnds (p : ℕ) : List (ℕ × ℕ) → List ℕ
  | [] => []
  | (b, c) :: rest => (p + b) :: runEnds (p + b + c) rest

theorem length_runEnds (runs : List (ℕ × ℕ)) :
    ∀ p, (runEnds p runs).length = runs.length := by
  induction runs with
  | nil => intro p; rfl
  | cons r rest ih =>
    intro p
    obtain ⟨b, c⟩ := r
    simp [runEnds, ih]

/-- Scanning a sequence of qualifying blocks from a quiet state tracks
exactly the last two recorded boundaries. -/
theorem scanSamples_blocks (runs : List (ℕ × ℕ))
    (hr : ∀ r ∈ runs, silenceDuration < r.1 ∧ 0 < r.2) :
    ∀ (s e p : ℕ),
      scanSamples ⟨0, s, e⟩ p (blocksStream runs)
        = ⟨0, (lastTwo (s :: e :: runEnds p runs)).1,
              (lastTwo (s :: e :: runEnds p runs)).2⟩ := by
  induction runs with
  | nil => intro s e p; simp [blocksStream, scanSamples, runEnds, lastTwo]
  | cons r rest ih =>
    intro s e p
    obtain ⟨b, c⟩ := r
    have hbc := hr (b, c) (List.mem_cons_self _ _)
    simp only [blocksStream]
    rw [scanSamples_append, scanSamples_block b c hbc.1 hbc.2 s e p]
    simp only [List.length_append, List.length_replicate]
    rw [ih (fun x hx => hr x (List.mem_cons_of_mem _ hx)) e (p + b) (p + (b + c))]
    have hpos : p + (b + c) = p + b + c := by omega
    rw [hpos]
    simp only [runEnds]
    have hlen : 2 ≤ (e :: (p + b) :: runEnds (p + b + c) rest).length := by
      simp
    rw [lastTwo_cons_of_two_le s _ hlen]

-- ## Seamless player (`seamlessLoop` / `playAudioSegment`)

/-- Go's float-to-int conversion truncates toward zero: `Int.tdiv` is
truncated division, so `num.tdiv den` is exactly that rounding. -/
def truncToZero (q : ℚ) : ℤ :=
  q.num.tdiv (q.den : ℤ)

/-- The two bytes Go writes for a 16-bit sample value `v`:
`byte(v)` and `byte(v >> 8)` — the little-endian halves of the 16-bit
two's-complement pattern of `v`. -/
def int16Bytes (v : ℤ) : List ℕ :=
  let bits := (v % 65536).toNat
  [bits % 256, bits / 256]

/-- Byte packing of one sample (`main.go` lines 139–145): for each
channel, `sample := int16(buffer[i][ch] * 32767)` written little-endian,
left channel first (`writeBuffer[i*4+ch*2]`, `writeBuffer[i*4+ch*2+1]`). -/
def packSample (s : Sample) : List ℕ :=
  int16Bytes (truncToZero (s.1 * 32767)) ++ int16Bytes (truncToZero (s.2 * 32767))

/-- The byte buffer written for one pulled batch of `n` samples
(`writeBuffer`, `n*4` bytes). -/
def packBatch (batch : List Sample) : List ℕ :=
  (batch.map packSample).flatten

/-- The inner loop of `playAudioSegment` on the stream's pull behaviour:
while `samplesPlayed < segmentLength`, pull the next batch; stop when the
pull reports `!ok || n == 0`; otherwise write the whole pulled batch and
add the number of samples actually delivered to `samplesPlayed`.  Returns
the concatenation of all bytes written. -/
def playGo : List (List Sample × Bool) → ℤ → ℤ → List ℕ
  | pulls, samplesPlayed, segmentLength =>
    if samplesPlayed < segmentLength then
      match pulls with
      | [] => []
      | (batch, ok) :: rest =>
        if ok = false ∨ batch.length = 0 then []
        else packBatch batch
          ++ playGo rest (samplesPlayed + batch.length) segmentLength
    else []

/-- `playAudioSegment` from `main.go`, for a well-behaved stream whose
cursor sits at `pos`: returns the bytes written to the player. -/
def playAudioSegment (samples : List Sample) (pos : ℕ) (segmentLength : ℤ) : List ℕ :=
  playGo (mkChunks (samples.drop pos)) 0 segmentLength

/-- `k` iterations of the infinite `seamlessLoop` from `main.go`: each
iteration seeks the stream to `start` and plays a segment of length
`end - start`; returns all bytes written across the `k` iterations. -/
def seamlessLoopN (samples : List Sample) (start «end» : ℕ) : ℕ → List ℕ
  | 0 => []
  | k + 1 =>
      playAudioSegment samples start ((«end» : ℤ) - (start : ℤ))
        ++ seamlessLoopN samples start «end» k

-- ## Packed-byte evaluation lemmas

theorem truncToZero_32767 : truncToZero ((1 : ℚ) * 32767) = 32767 := by
  have h : (1 : ℚ) * 32767 = 32767 := by norm_num
  rw [h]
  unfold truncToZero
  norm_num

theorem truncToZero_neg_32767 : truncToZero ((-1 : ℚ) * 32767) = -32767 := by
  have h : (-1 : ℚ) * 32767 = -32767 := by norm_num
  rw [h]
  unfold truncToZero
  norm_num

theorem truncToZero_zero : truncToZero ((0 : ℚ) * 32767) = 0 := by
  have h : (0 : ℚ) * 32767 = 0 := by norm_num
  rw [h]
  unfold truncToZero
  norm_num

-- ## Claim theorems

/-- The spec's formula for the silence-duration threshold: `sampleRate / 10`
samples, i.e. 100 ms at the stream's own sample rate. -/
def silenceDurationSpec (sampleRate : ℕ) : ℕ := sampleRate / 10

/-- C4 counterexample: the threshold `detectLoopSegment` uses is not
`sampleRate / 10` of the input stream's own rate — for a 22050 Hz stream
the spec formula gives 2205 samples, but the code always uses 4410. -/
theorem silenceDuration_ne_spec_at_22050 :
    silenceDuration ≠ silenceDurationSpec 22050 ∧ silenceDuration = 4410 := by
  constructor
  · decide
  · decide

/-- C4 (amended): the silence-duration threshold is the fixed constant
`44100 / 10 = 4410` samples, independent of the input stream's sample
rate; it agrees with the spec's `sampleRate / 10` only at 44100 Hz. -/
theorem silenceDuration_is_constant :
    silenceDuration = 44100 / 10 ∧ silenceDuration = 4410
      ∧ silenceDuration = silenceDurationSpec 44100 := by
  exact ⟨rfl, by decide, by decide⟩

/-- C6: the sample `(1.0, -1.0)` packs to the little-endian signed 16-bit
encodings of `32767` (`FF 7F`) then `-32767` (`01 80`), left channel's two
bytes first; the sample `(0.0, 0.0)` packs to four zero bytes. -/
theorem packSample_fullscale_and_zero :
    packSample (1, -1) = [255, 127, 1, 128]
      ∧ packSample (0, 0) = [0, 0, 0, 0] := by
  constructor
  · show int16Bytes (truncToZero ((1 : ℚ) * 32767))
        ++ int16Bytes (truncToZero ((-1 : ℚ) * 32767)) = _
    rw [truncToZero_32767, truncToZero_neg_32767]
    decide
  · show int16Bytes (truncToZero ((0 : ℚ) * 32767))
        ++ int16Bytes (truncToZero ((0 : ℚ) * 32767)) = _
    rw [truncToZero_zero]
    decide

/-- C10: the detector counts a sample as silent exactly when its signed
channel average is below the threshold — no absolute value — so the
full-amplitude sample `(-1, -1)` and the out-of-phase pair `(1, -1)` are
both counted as silence. -/
theorem silence_classification_signed :
    (∀ (st : DetectState) (idx : ℕ) (s : Sample),
        (stepSample st idx s).silenceCount = st.silenceCount + 1 ↔ isSilent s)
      ∧ isSilent (-1, -1) ∧ isSilent (1, -1) := by
  refine ⟨fun st idx s => ?_, ?_, ?_⟩
  · by_cases hs : isSilent s
    · rw [stepSample_silent st idx hs]
      simp [hs]
    · rw [stepSample_loud st idx hs]
      by_cases hc : silenceDuration < st.silenceCount <;> simp [hc, hs]
  · unfold isSilent threshold
    norm_num
  · unfold isSilent threshold
    norm_num

/-- C1 counterexample: one iteration of the play loop with `start = 2`,
`end = 5` on a 10-sample stream writes 32 bytes (8 samples' worth — the
single pull delivers all 8 remaining samples and the loop never truncates
a pulled chunk), not the claimed `(5-2)*4 = 12` bytes. -/
theorem seamless_iteration_not_exact :
    (seamlessLoopN (List.replicate 10 loudSample) 2 5 1).length ≠ (5 - 2) * 4
      ∧ (seamlessLoopN (List.replicate 10 loudSample) 2 5 1).length = 8 * 4 := by
  constructor
  · decide
  · decide

/-- C1 (amended): every iteration of the seamless play loop writes the
same byte sequence — the whole pulled chunks delivered until the running
count of samples actually delivered first reaches `end - start`, which can
exceed `end - start` samples; with `start = 2`, `end = 5` on a 10-sample
stream every iteration writes exactly 8 samples' worth (32 bytes). -/
theorem seamless_iteration_bytes :
    (∀ (samples : List Sample) (start «end» k : ℕ),
        seamlessLoopN samples start «end» k
          = (List.replicate k
              (playAudioSegment samples start ((«end» : ℤ) - (start : ℤ)))).flatten)
      ∧ ∀ k, (seamlessLoopN (List.replicate 10 loudSample) 2 5 k).length = k * 32 := by
  constructor
  · intro samples start «end» k
    induction k with
    | zero => rfl
    | succ k ih => simp [seamlessLoopN, List.replicate_succ, ih]
  · intro k
    induction k with
    | zero => rfl
    | succ k ih =>
      show (playAudioSegment _ _ _ ++ _).length = _
      rw [List.length_append, ih]
      have h32 : (playAudioSegment (List.replicate 10 loudSample) 2
          (((5 : ℕ) : ℤ) - ((2 : ℕ) : ℤ))).length = 32 := by decide
      rw [h32]
      ring

/-- C7: whenever the pull after seeking to `start` yields zero samples
(`start` at or beyond the stream length), or `start = end` (zero samples
requested), every iteration of the play loop writes nothing and the outer
loop merely re-seeks and spins; no failure occurs (the model is total). -/
theorem seamless_degenerate_no_writes (samples : List Sample)
    (start «end» : ℕ) (h : samples.length ≤ start ∨ start = «end») (k : ℕ) :
    seamlessLoopN samples start «end» k = [] := by
  induction k with
  | zero => rfl
  | succ k ih =>
    show playAudioSegment samples start _ ++ _ = []
    rw [ih, List.append_nil]
    rcases h with h | h
    · unfold playAudioSegment
      rw [List.drop_eq_nil_of_le h]
      show playGo (mkChunks []) 0 _ = []
      simp [mkChunks, mkChunksFuel, playGo]
    · subst h
      unfold playAudioSegment
      unfold playGo
      norm_num

/-- C7 witness: `start = 1000000`, `end = 1000010` on a 100-sample stream
writes nothing in 3 iterations, and neither does `start = end = 5`. -/
theorem seamless_degenerate_no_writes_witness :
    seamlessLoopN (List.replicate 100 loudSample) 1000000 1000010 3 = []
      ∧ seamlessLoopN (List.replicate 100 loudSample) 5 5 3 = [] :=
  ⟨seamless_degenerate_no_writes _ _ _ (Or.inl (by norm_num)) 3,
   seamless_degenerate_no_writes _ _ _ (Or.inr rfl) 3⟩

/-- Detection on a run-structured stream (a loud prefix of `a` samples,
then qualifying silent/loud blocks) yields the last two recorded
boundaries, starting from the default pair `(0, 0)`. -/
theorem detectOnStream_runsStream (a : ℕ) (runs : List (ℕ × ℕ))
    (hr : ∀ r ∈ runs, silenceDuration < r.1 ∧ 0 < r.2) :
    detectOnStream (runsStream a runs)
      = lastTwo (0 :: 0 :: runEnds a runs) := by
  rw [detectOnStream_eq_scan]
  unfold runsStream
  rw [scanSamples_append]
  rw [scanSamples_loud_run_of_zero a 0 0 0]
  simp only [List.length_replicate, Nat.zero_add]
  rw [scanSamples_blocks runs hr 0 0 a]

/-- C2 counterexample: a stream with exactly two qualifying silence runs
(4411 samples each, separated and followed by non-silent audio; the second
run ends at sample index 8824) makes `detect` return `(4412, 8824)` — the
ends of the first and second runs — not the claimed `(0, 8824)`. -/
theorem detect_two_runs_counterexample :
    detectOnStream (runsStream 1 [(4411, 1), (4411, 1)]) = (4412, 8824)
      ∧ ((4412 : ℕ), (8824 : ℕ)) ≠ ((0 : ℕ), (8824 : ℕ)) := by
  constructor
  · rw [detectOnStream_runsStream 1 [(4411, 1), (4411, 1)] (by decide)]
    decide
  · decide

/-- C2 (amended): for a stream with exactly two silence runs longer than
`silenceDuration`, separated by non-silent audio and each followed by at
least one non-silent sample, `detect` returns
`(idxOfFirstRunEnd, idxOfSecondRunEnd)`: the start is the index at which
the **first** silent run ends, not 0. -/
theorem detect_two_runs_boundaries (a b c d e : ℕ)
    (hb : silenceDuration < b) (hd : silenceDuration < d)
    (hc : 0 < c) (he : 0 < e) :
    detectOnStream (runsStream a [(b, c), (d, e)])
      = (a + b, a + b + c + d) := by
  rw [detectOnStream_runsStream a [(b, c), (d, e)] ?_]
  · simp [runEnds, lastTwo]
  · intro r hrm
    simp only [List.mem_cons, List.mem_singleton] at hrm
    rcases hrm with rfl | rfl | h
    · exact ⟨hb, hc⟩
    · exact ⟨hd, he⟩
    · simp at h

/-- C2 witness: with a 1-sample loud prefix, runs of 4411 silent samples
and loud gaps of 2 and 3 samples, `detect` returns `(4412, 8825)`. -/
theorem detect_two_runs_boundaries_witness :
    detectOnStream (runsStream 1 [(4411, 2), (4411, 3)]) = (4412, 8825) := by
  have h := detect_two_runs_boundaries 1 4411 2 4411 3
    (by decide) (by decide) (by decide) (by decide)
  rw [h]

/-- C3: for a stream with three or more qualifying silence runs (each
longer than `silenceDuration` and each followed by at least one non-silent
sample), `detect` returns exactly the last two recorded boundaries — the
end indices of the second-to-last and last runs — discarding all earlier
ones. -/
theorem detect_last_two_boundaries (a : ℕ) (runs : List (ℕ × ℕ))
    (h3 : 3 ≤ runs.length)
    (hr : ∀ r ∈ runs, silenceDuration < r.1 ∧ 0 < r.2) :
    detectOnStream (runsStream a runs) = lastTwo (runEnds a runs) := by
  rw [detectOnStream_runsStream a runs hr]
  have hlen : (runEnds a runs).length = runs.length := length_runEnds runs a
  rw [lastTwo_cons_of_two_le 0 (0 :: runEnds a runs) (by simp [hlen]; omega)]
  rw [lastTwo_cons_of_two_le 0 (runEnds a runs) (by omega)]

/-- C3 witness: three qualifying runs ending at indices 4411, 8824 and
13238; `detect` keeps only the last two. -/
theorem detect_last_two_boundaries_witness :
    detectOnStream (runsStream 0 [(4411, 1), (4412, 1), (4413, 2)])
      = (8824, 13238) := by
  have h := detect_last_two_boundaries 0 [(4411, 1), (4412, 1), (4413, 2)]
    (by decide) (by decide)
  rw [h]
  decide

-- ## C5: streams without a long silent run

/-- Boolean form of the silence test, for `List.takeWhile`. -/
def silentB (s : Sample) : Bool := decide (isSilent s)

theorem silentB_silentSample : silentB silentSample = true :=
  decide_eq_true isSilent_silentSample

theorem silentB_loudSample : silentB loudSample = false :=
  decide_eq_false not_isSilent_loudSample

/-- If every silent run of the remaining stream fits below the duration
(and the counter plus the silent prefix still fits), the scan never
records a boundary: the `(start, end)` fields stay at `0`. -/
theorem scanSamples_no_boundary :
    ∀ (xs : List Sample) (st : DetectState) (idx : ℕ),
      st.start = 0 → st.«end» = 0 →
      st.silenceCount + (xs.takeWhile silentB).length ≤ silenceDuration →
      (∀ i, ((xs.drop i).takeWhile silentB).length ≤ silenceDuration) →
      (scanSamples st idx xs).start = 0 ∧ (scanSamples st idx xs).«end» = 0 := by
  intro xs
  induction xs with
  | nil => intro st idx h1 h2 _ _; exact ⟨h1, h2⟩
  | cons s rest ih =>
    intro st idx h1 h2 hguard hruns
    by_cases hs : isSilent s
    · have hsB : silentB s = true := decide_eq_true hs
      have htw : ((s :: rest).takeWhile silentB) = s :: rest.takeWhile silentB := by
        simp [List.takeWhile_cons, hsB]
      rw [htw, List.length_cons] at hguard
      simp only [scanSamples]
      rw [stepSample_silent st idx hs]
      refine ih ⟨st.silenceCount + 1, st.start, st.«end»⟩ (idx + 1) h1 h2 ?_ ?_
      · show st.silenceCount + 1 + (rest.takeWhile silentB).length ≤ _
        omega
      · intro i
        have := hruns (i + 1)
        rwa [List.drop_succ_cons] at this
    · have hsB : silentB s = false := decide_eq_false hs
      have hcnt : ¬ silenceDuration < st.silenceCount := by omega
      simp only [scanSamples]
      rw [stepSample_loud st idx hs, if_neg hcnt]
      refine ih ⟨0, st.start, st.«end»⟩ (idx + 1) h1 h2 ?_ ?_
      · show 0 + (rest.takeWhile silentB).length ≤ _
        have h5 := hruns 1
        simp only [List.drop_succ_cons, List.drop_zero] at h5
        omega
      · intro i
        have := hruns (i + 1)
        rwa [List.drop_succ_cons] at this

/-- C5: if no run of consecutive samples with average channel amplitude
below the threshold is longer than `silenceDuration`, `detect` returns the
default `(0, 0)`. -/
theorem detect_no_long_silence (xs : List Sample)
    (h : ∀ i, i < xs.length →
        ((xs.drop i).takeWhile silentB).length ≤ silenceDuration) :
    detectOnStream xs = (0, 0) := by
  have h' : ∀ i, ((xs.drop i).takeWhile silentB).length ≤ silenceDuration := by
    intro i
    by_cases hi : i < xs.length
    · exact h i hi
    · rw [List.drop_eq_nil_of_le (by omega)]
      simp [List.takeWhile]
  have hmain := scanSamples_no_boundary xs ⟨0, 0, 0⟩ 0 rfl rfl
    (by simpa using h' 0) h'
  rw [detectOnStream_eq_scan]
  rw [hmain.1, hmain.2]

/-- C5 witness: a 5-sample stream whose only silent run (2 samples) is far
below the duration threshold; `detect` returns `(0, 0)`. -/
theorem detect_no_long_silence_witness :
    detectOnStream (List.replicate 3 loudSample ++ List.replicate 2 silentSample)
      = (0, 0) := by
  apply detect_no_long_silence
  intro i hi
  simp only [List.length_append, List.length_replicate] at hi
  interval_cases i <;>
    simp [List.replicate, List.takeWhile_cons, silentB_loudSample,
      silentB_silentSample, silenceDuration]

-- ## C8: read errors are treated as end-of-stream

/-- C8: `detect` is total, and a pull that reports failure (`ok = false`)
stops the scan exactly where end-of-stream would: on any stream whose
pulls are `good` batches followed by a failing pull and anything after it,
the result equals the result of scanning `good` alone, i.e. the boundaries
accumulated so far.  No error is surfaced. -/
theorem detect_error_treated_as_eof (good : List (List Sample × Bool))
    (b : List Sample) (rest : List (List Sample × Bool))
    (hgood : ∀ p ∈ good, p.2 = true ∧ p.1 ≠ []) :
    detectLoopSegment (good ++ (b, false) :: rest) = detectLoopSegment good := by
  suffices hgo : ∀ (i : ℕ) (st : DetectState),
      detectGo (good ++ (b, false) :: rest) i st = detectGo good i st by
    unfold detectLoopSegment
    rw [hgo 0 ⟨0, 0, 0⟩]
  induction good with
  | nil =>
    intro i st
    simp [detectGo]
  | cons p gs ih =>
    intro i st
    obtain ⟨batch, ok⟩ := p
    have hp := hgood (batch, ok) (List.mem_cons_self _ _)
    have hok : ok = true := hp.1
    have hne : batch.length ≠ 0 := fun hlen =>
      hp.2 (List.eq_nil_of_length_eq_zero hlen)
    subst hok
    show detectGo ((batch, true) :: (gs ++ (b, false) :: rest)) i st = _
    simp only [detectGo]
    rw [if_neg (by simp [hne]), if_neg (by simp [hne])]
    exact ih (fun q hq => hgood q (List.mem_cons_of_mem _ hq)) (i + 1) _

/-- C8 witness: a good pull, then a failing pull, then a further batch the
scan must ignore. -/
theorem detect_error_treated_as_eof_witness :
    detectLoopSegment
        ([([loudSample], true)] ++ ([silentSample], false) :: [([loudSample], true)])
      = detectLoopSegment [([loudSample], true)] :=
  detect_error_treated_as_eof [([loudSample], true)] [silentSample]
    [([loudSample], true)] (by simp)

-- ## C9: the detected segment is always ordered

/-- The scan preserves `start ≤ end` and keeps `end` below the running
index. -/
theorem scanSamples_ordered :
    ∀ (xs : List Sample) (st : DetectState) (idx : ℕ),
      st.start ≤ st.«end» → st.«end» ≤ idx →
      (scanSamples st idx xs).start ≤ (scanSamples st idx xs).«end»
        ∧ (scanSamples st idx xs).«end» ≤ idx + xs.length := by
  intro xs
  induction xs with
  | nil =>
    intro st idx h1 h2
    exact ⟨h1, by simpa using h2⟩
  | cons s rest ih =>
    intro st idx h1 h2
    simp only [scanSamples, List.length_cons]
    have hstep : (stepSample st idx s).start ≤ (stepSample st idx s).«end»
        ∧ (stepSample st idx s).«end» ≤ idx + 1 := by
      by_cases hs : isSilent s
      · rw [stepSample_silent st idx hs]
        exact ⟨h1, Nat.le_succ_of_le h2⟩
      · rw [stepSample_loud st idx hs]
        by_cases hc : silenceDuration < st.silenceCount
        · rw [if_pos hc]
          exact ⟨h2, Nat.le_succ idx⟩
        · rw [if_neg hc]
          exact ⟨h1, Nat.le_succ_of_le h2⟩
    have := ih (stepSample st idx s) (idx + 1) hstep.1 hstep.2
    exact ⟨this.1, by omega⟩

/-- The outer pull loop preserves the ordering invariant as long as every
batch respects the 1024-sample buffer bound. -/
theorem detectGo_ordered :
    ∀ (pulls : List (List Sample × Bool)) (i : ℕ) (st : DetectState),
      (∀ p ∈ pulls, p.1.length ≤ 1024) →
      st.start ≤ st.«end» → st.«end» ≤ i * 1024 →
      (detectGo pulls i st).start ≤ (detectGo pulls i st).«end» := by
  intro pulls
  induction pulls with
  | nil => intro i st _ h1 _; exact h1
  | cons p rest ih =>
    intro i st hlen h1 h2
    obtain ⟨batch, ok⟩ := p
    simp only [detectGo]
    by_cases hc : ok = false ∨ batch.length = 0
    · rw [if_pos hc]; exact h1
    · rw [if_neg hc]
      have hb : batch.length ≤ 1024 := hlen (batch, ok) (List.mem_cons_self _ _)
      have hscan := scanSamples_ordered batch st (i * 1024) h1 h2
      refine ih (i + 1) _ (fun q hq => hlen q (List.mem_cons_of_mem _ hq))
        hscan.1 ?_
      have hmul : (i + 1) * 1024 = i * 1024 + 1024 := by ring
      have hsc := hscan.2
      omega

/-- C9: for every stream — any pull behaviour whose batches fit the
1024-sample buffer `detectLoopSegment` allocates — the returned pair
satisfies `0 ≤ start ≤ end`. -/
theorem detect_start_le_end (pulls : List (List Sample × Bool))
    (hlen : ∀ p ∈ pulls, p.1.length ≤ 1024) :
    0 ≤ (detectLoopSegment pulls).1
      ∧ (detectLoopSegment pulls).1 ≤ (detectLoopSegment pulls).2 := by
  refine ⟨Nat.zero_le _, ?_⟩
  unfold detectLoopSegment
  exact detectGo_ordered pulls 0 ⟨0, 0, 0⟩ hlen le_rfl (by simp)

/-- C9 witness: a concrete two-batch stream. -/
theorem detect_start_le_end_witness :
    0 ≤ (detectLoopSegment [([loudSample, silentSample], true), ([loudSample], true)]).1
      ∧ (detectLoopSegment [([loudSample, silentSample], true), ([loudSample], true)]).1
        ≤ (detectLoopSegment [([loudSample, silentSample], true), ([loudSample], true)]).2 :=
  detect_start_le_end _ (by simp)
